import Mathlib

/-!
Shallow embedding of the book buffer cache of this repository
(`BookCacheManager` in `src/lib/bookCache.ts`).

The cache is a JavaScript `Map<string, CachedBook>`; we embed it as an
association list in insertion order, which is exactly the iteration order
of a JavaScript `Map` (`set` on an existing key keeps its position, `set`
on a fresh key appends, `delete` removes the entry).  Timestamps are
naturals (milliseconds); `Date.now()` becomes an explicit `now` argument.
`now - t > age` agrees between JavaScript numbers and truncated `Nat`
subtraction for all inputs, because a negative difference is never `> age`
and neither is `0`.  An `ArrayBuffer` is embedded as its byte sequence.
-/

/-- One cache record, mirroring the `CachedBook` interface field by field. -/
structure CachedBook where
  id : String
  arrayBuffer : List Nat
  timestamp : Nat
  lastAccessed : Nat
  deriving DecidableEq, Repr

/-- The `CACHE_CONFIG` object.  The spec calls the constants configurable,
so the embedding takes the configuration as a parameter; `defaultConfig`
below is the literal object from the source. -/
structure CacheConfig where
  MAX_CACHE_SIZE : Nat
  MAX_CACHE_AGE : Nat
  PRELOAD_TIMEOUT : Nat
  deriving DecidableEq, Repr

/-- The constants of `CACHE_CONFIG` in the source. -/
def defaultConfig : CacheConfig :=
  { MAX_CACHE_SIZE := 5
    MAX_CACHE_AGE := 24 * 60 * 60 * 1000
    PRELOAD_TIMEOUT := 10000 }

/-- The module-level `bookCache` map, as an association list in `Map`
iteration (insertion) order. -/
abbrev Cache := List (String × CachedBook)

/-- `Map.get`: the value stored under `k`, if any. -/
def mapGet (k : String) : Cache → Option CachedBook
  | [] => none
  | (k', v) :: rest => if k' = k then some v else mapGet k rest

/-- `Map.set`: overwrite in place when the key is present (keeping its
position in iteration order), append otherwise. -/
def mapSet (k : String) (v : CachedBook) : Cache → Cache
  | [] => [(k, v)]
  | (k', v') :: rest => if k' = k then (k, v) :: rest else (k', v') :: mapSet k v rest

/-- `Map.delete`: remove the first (and, keys being unique, only) entry
stored under `k`. -/
def mapDelete (k : String) : Cache → Cache
  | [] => []
  | (k', v') :: rest => if k' = k then rest else (k', v') :: mapDelete k rest

/-- The keys of the cache in iteration order. -/
def cacheKeys (c : Cache) : List String := c.map Prod.fst

/-- `BookCacheManager.isBookCached`: a lookup that reports presence,
deleting (and denying) an expired entry.  Returns the flag together with
the cache state after the call. -/
def isBookCached (cfg : CacheConfig) (now : Nat) (bookId : String) (c : Cache) :
    Bool × Cache :=
  match mapGet bookId c with
  | none => (false, c)
  | some cached =>
    if now - cached.timestamp > cfg.MAX_CACHE_AGE then
      (false, mapDelete bookId c)
    else
      (true, c)

/-- `BookCacheManager.getCachedBook`: return the buffer when present and
unexpired (refreshing `lastAccessed`), delete an expired entry, return
`none` otherwise. -/
def getCachedBook (cfg : CacheConfig) (now : Nat) (bookId : String) (c : Cache) :
    Option (List Nat) × Cache :=
  match mapGet bookId c with
  | none => (none, c)
  | some cached =>
    if now - cached.timestamp > cfg.MAX_CACHE_AGE then
      (none, mapDelete bookId c)
    else
      (some cached.arrayBuffer,
        mapSet bookId { cached with lastAccessed := now } c)

/-- The `expiredKeys.forEach(key => bookCache.delete(key))` loop of
`cleanExpiredCache`. -/
def sweepDeletes (ks : List String) (c : Cache) : Cache :=
  ks.foldl (fun acc key => mapDelete key acc) c

/-- `BookCacheManager.cleanExpiredCache`: collect the keys of all expired
entries, then delete each of them.  The TypeScript function is declared
`void` and has no `return` statement, so the JavaScript value it returns
is `undefined`; we record that returned value as `none : Option Nat` so
it can be compared with the count the spec says is returned. -/
def cleanExpiredCache (cfg : CacheConfig) (now : Nat) (c : Cache) :
    Cache × Option Nat :=
  let expiredKeys :=
    (c.filter (fun kv => now - kv.2.timestamp > cfg.MAX_CACHE_AGE)).map Prod.fst
  (sweepDeletes expiredKeys c, none)

/-- The `for (const [key, cached] of bookCache)` selection loop inside
`cacheBook`: fold over the entries carrying `(oldestKey, oldestTime)`,
replacing them whenever an entry's `lastAccessed` is strictly below the
running minimum. -/
def evictLoop : Cache → String → Nat → String × Nat
  | [], oldestKey, oldestTime => (oldestKey, oldestTime)
  | (key, cached) :: rest, oldestKey, oldestTime =>
    if cached.lastAccessed < oldestTime then
      evictLoop rest key cached.lastAccessed
    else
      evictLoop rest oldestKey oldestTime

/-- `BookCacheManager.cacheBook`: sweep expired entries, then, when the
cache is at or above capacity, run the selection loop seeded with
`oldestKey = ""` and `oldestTime = Date.now()` and delete the selected
key only when it is truthy (a nonempty string), and finally insert the
new entry with both timestamps set to `now`. -/
def cacheBook (cfg : CacheConfig) (now : Nat) (bookId : String)
    (arrayBuffer : List Nat) (c : Cache) : Cache :=
  let c1 := (cleanExpiredCache cfg now c).1
  let c2 :=
    if cfg.MAX_CACHE_SIZE ≤ c1.length then
      let sel := evictLoop c1 "" now
      if sel.1 ≠ "" then mapDelete sel.1 c1 else c1
    else c1
  mapSet bookId
    { id := bookId, arrayBuffer := arrayBuffer, timestamp := now, lastAccessed := now }
    c2

/-- The settled outcome of `Promise.race([file.arrayBuffer(), timeoutPromise])`
inside `preloadBook`: either the bytes arrived before the timeout, or the
`await` throws (a rejection of `file.arrayBuffer()`, or the
`'Book preload timeout'` error when nothing resolved within
`PRELOAD_TIMEOUT`). -/
abbrev RaceOutcome := Except String (List Nat)

/-- The `try`-block of `BookCacheManager.preloadBook`, reached when the
book is not cached: awaiting the race either yields the buffer, which is
stored via `cacheBook`, or throws.  The `Bool` records that
`file.arrayBuffer()` was invoked. -/
def preloadTry (cfg : CacheConfig) (now : Nat) (race : RaceOutcome)
    (bookId : String) (c : Cache) : Except String (Bool × Cache) :=
  match race with
  | Except.ok arrayBuffer => Except.ok (true, cacheBook cfg now bookId arrayBuffer c)
  | Except.error e => Except.error e

/-- `BookCacheManager.preloadBook`: skip when `isBookCached` answers true;
otherwise run the `try`-block, and on a thrown error fall into the
`catch`, which only logs a warning and leaves the cache as it was after
the `isBookCached` check.  The `Bool` result counts whether the
byte-producing operation `file.arrayBuffer()` was invoked; the function
itself never throws. -/
def preloadBook (cfg : CacheConfig) (now : Nat) (race : RaceOutcome)
    (bookId : String) (c : Cache) : Bool × Cache :=
  let checked := isBookCached cfg now bookId c
  if checked.1 then
    (false, checked.2)
  else
    match preloadTry cfg now race bookId checked.2 with
    | Except.ok r => r
    | Except.error _ => (true, checked.2)

/-- `BookCacheManager.clearAllCache`. -/
def clearAllCache (_c : Cache) : Cache := []

/-- The record returned by `BookCacheManager.getCacheStats`. -/
structure CacheStats where
  totalCached : Nat
  totalSize : Nat
  oldestCache : Nat
  newestCache : Nat
  deriving DecidableEq, Repr

/-- `BookCacheManager.getCacheStats`: fold over the entries accumulating
the byte total, the minimum timestamp seeded with `Date.now()`, and the
maximum timestamp seeded with `0`. -/
def getCacheStats (now : Nat) (c : Cache) : CacheStats :=
  let acc := c.foldl
    (fun (a : Nat × Nat × Nat) cached =>
      (a.1 + cached.2.arrayBuffer.length,
        min a.2.1 cached.2.timestamp,
        max a.2.2 cached.2.timestamp))
    (0, now, 0)
  { totalCached := c.length
    totalSize := acc.1
    oldestCache := acc.2.1
    newestCache := acc.2.2 }

/-! ### Basic lemmas about the embedded `Map` operations -/

theorem mapGet_eq_none_iff (k : String) (c : Cache) :
    mapGet k c = none ↔ k ∉ cacheKeys c := by
  induction c with
  | nil => simp [mapGet, cacheKeys]
  | cons e rest ih =>
    obtain ⟨k', v⟩ := e
    rw [cacheKeys, List.map_cons]
    by_cases h : k' = k
    · subst h
      simp [mapGet]
    · simp only [mapGet, if_neg h, List.mem_cons]
      rw [cacheKeys] at ih
      simp [ih, Ne.symm h]

theorem mapGet_set_self (k : String) (v : CachedBook) (c : Cache) :
    mapGet k (mapSet k v c) = some v := by
  induction c with
  | nil => simp [mapGet, mapSet]
  | cons e rest ih =>
    obtain ⟨k', v'⟩ := e
    by_cases h : k' = k <;> simp [mapGet, mapSet, h, ih]

theorem mapGet_set_ne (k k' : String) (v : CachedBook) (c : Cache) (h : k' ≠ k) :
    mapGet k' (mapSet k v c) = mapGet k' c := by
  induction c with
  | nil => simp [mapGet, mapSet, Ne.symm h]
  | cons e rest ih =>
    obtain ⟨k₀, v₀⟩ := e
    by_cases h₀ : k₀ = k
    · subst h₀
      simp [mapGet, mapSet, Ne.symm h]
    · by_cases h₁ : k₀ = k' <;> simp [mapGet, mapSet, h₀, h₁, ih, h]

theorem mapGet_delete_ne (k k' : String) (c : Cache) (h : k' ≠ k) :
    mapGet k' (mapDelete k c) = mapGet k' c := by
  induction c with
  | nil => simp [mapDelete]
  | cons e rest ih =>
    obtain ⟨k₀, v₀⟩ := e
    by_cases h₀ : k₀ = k
    · subst h₀
      simp [mapGet, mapDelete, Ne.symm h]
    · by_cases h₁ : k₀ = k' <;> simp [mapGet, mapDelete, h₀, h₁, ih, h]

theorem mapDelete_sublist (k : String) (c : Cache) : (mapDelete k c).Sublist c := by
  induction c with
  | nil => exact List.Sublist.refl _
  | cons e rest ih =>
    obtain ⟨k₀, v₀⟩ := e
    simp only [mapDelete]
    by_cases h₀ : k₀ = k
    · rw [if_pos h₀]
      exact List.sublist_cons_self _ _
    · rw [if_neg h₀]
      exact List.Sublist.cons₂ _ ih

theorem mem_of_mapGet_eq_some {k : String} {v : CachedBook} {c : Cache}
    (h : mapGet k c = some v) : (k, v) ∈ c := by
  induction c with
  | nil => simp [mapGet] at h
  | cons e rest ih =>
    obtain ⟨k₀, v₀⟩ := e
    by_cases h₀ : k₀ = k
    · subst h₀
      simp [mapGet] at h
      simp [h]
    · simp only [mapGet, if_neg h₀] at h
      exact List.mem_cons_of_mem _ (ih h)

theorem mapGet_of_mem_nodup {k : String} {v : CachedBook} {c : Cache}
    (hn : (cacheKeys c).Nodup) (h : (k, v) ∈ c) : mapGet k c = some v := by
  induction c with
  | nil => simp at h
  | cons e rest ih =>
    obtain ⟨k₀, v₀⟩ := e
    rw [cacheKeys, List.map_cons, List.nodup_cons] at hn
    rcases List.mem_cons.mp h with h1 | h1
    · injection h1 with h1a h1b
      subst h1a
      subst h1b
      simp [mapGet]
    · have hk : k₀ ≠ k := by
        intro he
        apply hn.1
        rw [he]
        exact List.mem_map.mpr ⟨(k, v), h1, rfl⟩
      simp only [mapGet, if_neg hk]
      exact ih hn.2 h1

theorem mapSet_of_not_mem (k : String) (v : CachedBook) (c : Cache)
    (h : k ∉ cacheKeys c) : mapSet k v c = c ++ [(k, v)] := by
  induction c with
  | nil => simp [mapSet]
  | cons e rest ih =>
    obtain ⟨k₀, v₀⟩ := e
    rw [cacheKeys, List.map_cons, List.mem_cons] at h
    push_neg at h
    rw [mapSet, if_neg (Ne.symm h.1)]
    rw [cacheKeys] at ih
    simp [ih h.2]

theorem length_mapSet_le (k : String) (v : CachedBook) (c : Cache) :
    (mapSet k v c).length ≤ c.length + 1 := by
  induction c with
  | nil => simp [mapSet]
  | cons e rest ih =>
    obtain ⟨k₀, v₀⟩ := e
    by_cases h₀ : k₀ = k
    · simp [mapSet, h₀]
    · simp only [mapSet, if_neg h₀, List.length_cons]
      omega

theorem length_mapSet_of_mem (k : String) (v : CachedBook) (c : Cache)
    (h : k ∈ cacheKeys c) : (mapSet k v c).length = c.length := by
  induction c with
  | nil => simp [cacheKeys] at h
  | cons e rest ih =>
    obtain ⟨k₀, v₀⟩ := e
    by_cases h₀ : k₀ = k
    · simp [mapSet, h₀]
    · rw [cacheKeys, List.map_cons, List.mem_cons] at h
      rcases h with h | h
    
      · exact absurd h.symm h₀
      · simp only [mapSet, if_neg h₀, List.length_cons]
        rw [cacheKeys] at ih
        rw [ih h]

theorem length_mapDelete_of_mem (k : String) (c : Cache)
    (h : k ∈ cacheKeys c) : (mapDelete k c).length + 1 = c.length := by
  induction c with
  | nil => simp [cacheKeys] at h
  | cons e rest ih =>
    obtain ⟨k₀, v₀⟩ := e
    by_cases h₀ : k₀ = k
    · simp [mapDelete, h₀]
    · rw [cacheKeys, List.map_cons, List.mem_cons] at h
      rcases h with h | h
      · exact absurd h.symm h₀
      · simp only [mapDelete, if_neg h₀, List.length_cons]
        rw [cacheKeys] at ih
        rw [ih h]

theorem keys_mapDelete_sublist (k : String) (c : Cache) :
    (cacheKeys (mapDelete k c)).Sublist (cacheKeys c) :=
  List.Sublist.map Prod.fst (mapDelete_sublist k c)

theorem nodup_keys_mapDelete (k : String) (c : Cache)
    (hn : (cacheKeys c).Nodup) : (cacheKeys (mapDelete k c)).Nodup :=
  List.Nodup.sublist (keys_mapDelete_sublist k c) hn

theorem mapSet_mem_entries (k : String) (v : CachedBook) (c : Cache)
    (e : String × CachedBook) (he : e ∈ mapSet k v c) : e = (k, v) ∨ e ∈ c := by
  induction c with
  | nil => simpa [mapSet] using he
  | cons e₀ rest ih =>
    obtain ⟨k₀, v₀⟩ := e₀
    by_cases h₀ : k₀ = k
    · rw [mapSet, if_pos h₀] at he
      rcases List.mem_cons.mp he with h1 | h1
      · exact Or.inl h1
      · exact Or.inr (List.mem_cons_of_mem _ h1)
    · rw [mapSet, if_neg h₀] at he
      rcases List.mem_cons.mp he with h1 | h1
      · exact Or.inr (List.mem_cons.mpr (Or.inl h1))
      · rcases ih h1 with h2 | h2
        · exact Or.inl h2
        · exact Or.inr (List.mem_cons_of_mem _ h2)

theorem nodup_keys_mapSet (k : String) (v : CachedBook) (c : Cache)
    (hn : (cacheKeys c).Nodup) : (cacheKeys (mapSet k v c)).Nodup := by
  by_cases h : k ∈ cacheKeys c
  · induction c with
    | nil => simp [cacheKeys] at h
    | cons e rest ih =>
      obtain ⟨k₀, v₀⟩ := e
      rw [cacheKeys, List.map_cons, List.nodup_cons] at hn
      by_cases h₀ : k₀ = k
      · subst h₀
        rw [mapSet, if_pos rfl, cacheKeys, List.map_cons, List.nodup_cons]
        exact hn
      · rw [cacheKeys, List.map_cons, List.mem_cons] at h
        rcases h with h | h
        · exact absurd h.symm h₀
        · rw [mapSet, if_neg h₀, cacheKeys, List.map_cons, List.nodup_cons]
          refine ⟨?_, ih hn.2 h⟩
          intro hmem
          rcases List.mem_map.mp hmem with ⟨e, he, hfst⟩
          rcases mapSet_mem_entries k v rest e he with h1 | h1
          · subst h1
            exact h₀ hfst.symm
          · exact hn.1 (hfst ▸ List.mem_map.mpr ⟨e, h1, rfl⟩)
  · rw [mapSet_of_not_mem k v c h]
    rw [cacheKeys, List.map_append]
    simp only [List.map_cons, List.map_nil]
    rw [List.nodup_append]
    refine ⟨hn, List.nodup_singleton _, ?_⟩
    intro a ha hb
    simp at hb
    subst hb
    exact h ha

/-! ### The least-recently-used entry

`specLruKey` is the specification-side description of the eviction
candidate: the first entry, in iteration order, whose `lastAccessed` is
minimal, together with that minimal value. -/

def specLruKey : Cache → Option (String × Nat)
  | [] => none
  | (k, v) :: rest =>
    match specLruKey rest with
    | none => some (k, v.lastAccessed)
    | some p => if v.lastAccessed ≤ p.2 then some (k, v.lastAccessed) else some p

theorem specLruKey_eq_none_iff (c : Cache) : specLruKey c = none ↔ c = [] := by
  cases c with
  | nil => simp [specLruKey]
  | cons e rest =>
    obtain ⟨k, v⟩ := e
    rw [specLruKey]
    cases hsp : specLruKey rest with
    | none => simp
    | some p =>
      by_cases hle : v.lastAccessed ≤ p.2 <;> simp [hle]

theorem specLruKey_spec (c : Cache) (p : String × Nat) (h : specLruKey c = some p) :
    (∃ v, (p.1, v) ∈ c ∧ v.lastAccessed = p.2) ∧
      ∀ e ∈ c, p.2 ≤ e.2.lastAccessed := by
  induction c generalizing p with
  | nil => simp [specLruKey] at h
  | cons e rest ih =>
    obtain ⟨k, v⟩ := e
    rw [specLruKey] at h
    cases hsp : specLruKey rest with
    | none =>
      rw [hsp] at h
      injection h with h
      subst h
      refine ⟨⟨v, List.mem_cons_self _ _, rfl⟩, ?_⟩
      intro e he
      rcases List.mem_cons.mp he with h1 | h1
      · rw [h1]
      · rw [(specLruKey_eq_none_iff rest).mp hsp] at h1
        simp at h1
    | some q =>
      rw [hsp] at h
      obtain ⟨⟨w, hw, hwla⟩, hub⟩ := ih q hsp
      by_cases hle : v.lastAccessed ≤ q.2
      · simp only [if_pos hle] at h
        injection h with h
        subst h
        refine ⟨⟨v, List.mem_cons_self _ _, rfl⟩, ?_⟩
        intro e he
        rcases List.mem_cons.mp he with h1 | h1
        · rw [h1]
        · exact le_trans hle (hub e h1)
      · simp only [if_neg hle] at h
        injection h with h
        subst h
        refine ⟨⟨w, List.mem_cons_of_mem _ hw, hwla⟩, ?_⟩
        intro e he
        rcases List.mem_cons.mp he with h1 | h1
        · rw [h1]
          exact le_of_lt (not_le.mp hle)
        · exact hub e h1

theorem evictLoop_of_all_ge (c : Cache) (ok : String) (ot : Nat)
    (h : ∀ e ∈ c, ot ≤ e.2.lastAccessed) : evictLoop c ok ot = (ok, ot) := by
  induction c with
  | nil => rfl
  | cons e rest ih =>
    obtain ⟨k, v⟩ := e
    rw [evictLoop, if_neg (not_lt.mpr (h (k, v) (List.mem_cons_self _ _)))]
    exact ih fun e he => h e (List.mem_cons_of_mem _ he)

theorem evictLoop_eq_specLruKey (c : Cache) (ok : String) (ot : Nat)
    (h : ∃ e ∈ c, e.2.lastAccessed < ot) :
    ∃ p, specLruKey c = some p ∧ evictLoop c ok ot = p := by
  revert h
  induction c generalizing ok ot with
  | nil => intro h; simp at h
  | cons e rest ih =>
    intro h
    obtain ⟨k, v⟩ := e
    rw [evictLoop]
    by_cases hv : v.lastAccessed < ot
    · rw [if_pos hv]
      by_cases hr : ∃ e ∈ rest, e.2.lastAccessed < v.lastAccessed
      · obtain ⟨p, hp1, hp2⟩ := ih k v.lastAccessed hr
        refine ⟨p, ?_, hp2⟩
        obtain ⟨e, he, helt⟩ := hr
        have hlt : p.2 < v.lastAccessed :=
          lt_of_le_of_lt ((specLruKey_spec rest p hp1).2 e he) helt
        simp only [specLruKey, hp1, if_neg (not_le.mpr hlt)]
      · push_neg at hr
        refine ⟨(k, v.lastAccessed), ?_, evictLoop_of_all_ge rest k v.lastAccessed hr⟩
        cases hsp : specLruKey rest with
        | none => simp only [specLruKey, hsp]
        | some p =>
          obtain ⟨⟨w, hw, hwla⟩, _⟩ := specLruKey_spec rest p hsp
          have hle : v.lastAccessed ≤ p.2 := hwla ▸ hr (p.1, w) hw
          simp only [specLruKey, hsp, if_pos hle]
    · rw [if_neg hv]
      have hr : ∃ e ∈ rest, e.2.lastAccessed < ot := by
        obtain ⟨e, he, hlt⟩ := h
        rcases List.mem_cons.mp he with h1 | h1
        · rw [h1] at hlt
          exact absurd hlt hv
        · exact ⟨e, h1, hlt⟩
      obtain ⟨p, hp1, hp2⟩ := ih ok ot hr
      refine ⟨p, ?_, hp2⟩
      obtain ⟨e, he, hlt⟩ := hr
      have h2 : p.2 < v.lastAccessed :=
        lt_of_lt_of_le (lt_of_le_of_lt ((specLruKey_spec rest p hp1).2 e he) hlt)
          (not_lt.mp hv)
      simp only [specLruKey, hp1, if_neg (not_le.mpr h2)]

/-! ### The expiry sweep removes exactly the expired entries -/

theorem sweepDeletes_cons_entry (ks : List String) (k : String) (v : CachedBook)
    (c : Cache) (h : ∀ k' ∈ ks, k' ≠ k) :
    sweepDeletes ks ((k, v) :: c) = (k, v) :: sweepDeletes ks c := by
  induction ks generalizing c with
  | nil => rfl
  | cons k₀ ks' ih =>
    have hk : ¬k = k₀ := fun he => h k₀ (List.mem_cons_self _ _) he.symm
    show sweepDeletes ks' (mapDelete k₀ ((k, v) :: c)) = _
    rw [mapDelete, if_neg hk]
    exact ih (mapDelete k₀ c) (fun k' hk' => h k' (List.mem_cons_of_mem _ hk'))

theorem cleanExpiredCache_eq_filter (cfg : CacheConfig) (now : Nat) (c : Cache)
    (hn : (cacheKeys c).Nodup) :
    (cleanExpiredCache cfg now c).1 =
      c.filter (fun kv => !(decide (now - kv.2.timestamp > cfg.MAX_CACHE_AGE))) := by
  induction c with
  | nil => rfl
  | cons e rest ih =>
    obtain ⟨k, v⟩ := e
    rw [cacheKeys, List.map_cons, List.nodup_cons] at hn
    simp only [cleanExpiredCache] at ih ⊢
    by_cases hP : now - v.timestamp > cfg.MAX_CACHE_AGE
    · rw [List.filter_cons_of_pos (by simp only [decide_eq_true_eq, Bool.not_eq_true', decide_eq_false_iff_not, Bool.not_eq_false]; omega), List.map_cons]
      show sweepDeletes _ (mapDelete k ((k, v) :: rest)) =
        ((k, v) :: rest).filter _
      rw [mapDelete, if_pos rfl, List.filter_cons_of_neg (by simp only [decide_eq_true_eq, Bool.not_eq_true', decide_eq_false_iff_not, Bool.not_eq_false]; omega)]
      exact ih hn.2
    · rw [List.filter_cons_of_neg (by simp only [decide_eq_true_eq, Bool.not_eq_true', decide_eq_false_iff_not, Bool.not_eq_false]; omega),
        List.filter_cons_of_pos (by simp only [decide_eq_true_eq, Bool.not_eq_true', decide_eq_false_iff_not, Bool.not_eq_false]; omega)]
      rw [sweepDeletes_cons_entry]
      · rw [ih hn.2]
      · intro k' hk' he
        apply hn.1
        rw [← he]
        rcases List.mem_map.mp hk' with ⟨e, he', rfl⟩
        exact List.mem_map.mpr ⟨e, List.mem_of_mem_filter he', rfl⟩

theorem mapGet_filter_none (k : String) (c : Cache) (P : String × CachedBook → Bool)
    (h : mapGet k c = none) : mapGet k (c.filter P) = none := by
  rw [mapGet_eq_none_iff] at h ⊢
  intro hk
  exact h ((List.Sublist.map Prod.fst (List.filter_sublist c)).mem hk)

theorem mapGet_filter_pos {k : String} {v : CachedBook} {c : Cache}
    {P : String × CachedBook → Bool} (hn : (cacheKeys c).Nodup)
    (h : mapGet k c = some v) (hP : P (k, v) = true) :
    mapGet k (c.filter P) = some v := by
  apply mapGet_of_mem_nodup
  · exact List.Nodup.sublist (List.Sublist.map Prod.fst (List.filter_sublist c)) hn
  · exact List.mem_filter.mpr ⟨mem_of_mapGet_eq_some h, hP⟩

theorem mapGet_filter_neg {k : String} {v : CachedBook} {c : Cache}
    {P : String × CachedBook → Bool} (hn : (cacheKeys c).Nodup)
    (h : mapGet k c = some v) (hP : P (k, v) = false) :
    mapGet k (c.filter P) = none := by
  rw [mapGet_eq_none_iff]
  intro hk
  rcases List.mem_map.mp hk with ⟨e, he, hfst⟩
  obtain ⟨e1, e2⟩ := e
  have hfst' : e1 = k := hfst
  subst hfst'
  have he' : (e1, e2) ∈ c := List.mem_of_mem_filter he
  have hPe : P (e1, e2) = true := List.of_mem_filter he
  have hg : mapGet e1 c = some e2 := mapGet_of_mem_nodup hn he'
  rw [hg] at h
  injection h with h
  rw [h, hP] at hPe
  exact Bool.false_ne_true hPe

theorem mapGet_delete_self (k : String) (c : Cache)
    (hn : (cacheKeys c).Nodup) : mapGet k (mapDelete k c) = none := by
  induction c with
  | nil => simp [mapDelete, mapGet]
  | cons e rest ih =>
    obtain ⟨k₀, v₀⟩ := e
    rw [cacheKeys, List.map_cons, List.nodup_cons] at hn
    by_cases h₀ : k₀ = k
    · rw [mapDelete, if_pos h₀, mapGet_eq_none_iff]
      rw [← h₀]
      exact hn.1
    · rw [mapDelete, if_neg h₀, mapGet, if_neg h₀]
      exact ih hn.2

theorem isBookCached_of_hit (cfg : CacheConfig) (now : Nat) (k : String) (c : Cache)
    (h : (isBookCached cfg now k c).1 = true) :
    isBookCached cfg now k c = (true, c) := by
  rw [isBookCached] at h ⊢
  cases hm : mapGet k c with
  | none =>
    simp only [hm] at h
    exact Bool.noConfusion h
  | some v =>
    simp only [hm] at h ⊢
    by_cases he : now - v.timestamp > cfg.MAX_CACHE_AGE
    · rw [if_pos he] at h
      exact Bool.noConfusion h
    · rw [if_neg he]

theorem isBookCached_of_miss (cfg : CacheConfig) (now : Nat) (k : String) (c : Cache)
    (hn : (cacheKeys c).Nodup) (h : (isBookCached cfg now k c).1 = false) :
    mapGet k (isBookCached cfg now k c).2 = none := by
  rw [isBookCached] at h ⊢
  cases hm : mapGet k c with
  | none =>
    simp only [hm]
  | some v =>
    simp only [hm] at h ⊢
    by_cases he : now - v.timestamp > cfg.MAX_CACHE_AGE
    · rw [if_pos he]
      exact mapGet_delete_self k c hn
    · rw [if_neg he] at h
      exact Bool.noConfusion h

/-- Claim C4 (lazy expiry): an entry whose age `now - createdAt` exceeds
`MAX_AGE` is reported absent by `isBookCached` and by `getCachedBook`, and
either call deletes it: the post-state is `mapDelete k c`, in which the
key no longer resolves. -/
theorem claim_C4 (cfg : CacheConfig) (now : Nat) (k : String) (c : Cache)
    (v : CachedBook) (hn : (cacheKeys c).Nodup) (hv : mapGet k c = some v)
    (hexp : now - v.timestamp > cfg.MAX_CACHE_AGE) :
    isBookCached cfg now k c = (false, mapDelete k c) ∧
      getCachedBook cfg now k c = (none, mapDelete k c) ∧
      mapGet k (mapDelete k c) = none := by
  refine ⟨?_, ?_, mapGet_delete_self k c hn⟩
  · rw [isBookCached]
    simp only [hv]
    rw [if_pos hexp]
  · rw [getCachedBook]
    simp only [hv]
    rw [if_pos hexp]

/-- Witness for C4 at a concrete expired entry (inserted at time 0,
queried at `MAX_AGE + 1`). -/
theorem claim_C4_witness :
    isBookCached defaultConfig 86400001 "k" [("k", ⟨"k", [1], 0, 0⟩)] =
      (false, mapDelete "k" [("k", ⟨"k", [1], 0, 0⟩)]) ∧
      getCachedBook defaultConfig 86400001 "k" [("k", ⟨"k", [1], 0, 0⟩)] =
        (none, mapDelete "k" [("k", ⟨"k", [1], 0, 0⟩)]) ∧
      mapGet "k" (mapDelete "k" [("k", ⟨"k", [1], 0, 0⟩)]) = none :=
  claim_C4 defaultConfig 86400001 "k" [("k", ⟨"k", [1], 0, 0⟩)] ⟨"k", [1], 0, 0⟩
    (by decide) (by decide) (by decide)

/-- Claim C6 (preload skip on hit): when `isBookCached` answers true at
the time of the call, `preloadBook` returns at once: the byte-producing
operation is not invoked (`false` flag) and the cache is unchanged. -/
theorem claim_C6 (cfg : CacheConfig) (now : Nat) (race : RaceOutcome)
    (k : String) (c : Cache) (hc : (isBookCached cfg now k c).1 = true) :
    preloadBook cfg now race k c = (false, c) := by
  rw [preloadBook]
  simp [isBookCached_of_hit cfg now k c hc]

/-- Witness for C6: preloading a freshly cached key does not invoke the
byte producer even when that producer would fail. -/
theorem claim_C6_witness :
    preloadBook defaultConfig 5 (Except.error "boom") "k"
      [("k", ⟨"k", [1], 0, 0⟩)] = (false, [("k", ⟨"k", [1], 0, 0⟩)]) :=
  claim_C6 defaultConfig 5 (Except.error "boom") "k"
    [("k", ⟨"k", [1], 0, 0⟩)] (by decide)

/-- Claim C9 (isCached frame property): `isBookCached` answers true
exactly when the key holds an unexpired entry; the post-state is either
the cache itself or the cache with the queried (expired) key deleted; no
other key's entry changes, every surviving entry is an original entry
unchanged (in particular no `lastAccessed` is touched), and on a hit the
cache is fully unchanged. -/
theorem claim_C9 (cfg : CacheConfig) (now : Nat) (k : String) (c : Cache)
    (hn : (cacheKeys c).Nodup) :
    ((isBookCached cfg now k c).1 = true ↔
        ∃ v, mapGet k c = some v ∧ now - v.timestamp ≤ cfg.MAX_CACHE_AGE) ∧
      ((isBookCached cfg now k c).2 = c ∨
        (isBookCached cfg now k c).2 = mapDelete k c) ∧
      (∀ k', k' ≠ k → mapGet k' (isBookCached cfg now k c).2 = mapGet k' c) ∧
      (∀ k' v', mapGet k' (isBookCached cfg now k c).2 = some v' →
        mapGet k' c = some v') ∧
      ((isBookCached cfg now k c).1 = true → (isBookCached cfg now k c).2 = c) := by
  cases hm : mapGet k c with
  | none =>
    have hr : isBookCached cfg now k c = (false, c) := by
      rw [isBookCached]
      simp only [hm]
    rw [hr]
    refine ⟨?_, Or.inl rfl, fun k' _ => rfl, fun k' v' h => h, fun _ => rfl⟩
    simp [hm]
  | some v =>
    by_cases he : now - v.timestamp > cfg.MAX_CACHE_AGE
    · have hr : isBookCached cfg now k c = (false, mapDelete k c) := by
        rw [isBookCached]
        simp only [hm]
        rw [if_pos he]
      rw [hr]
      refine ⟨?_, Or.inr rfl, ?_, ?_, ?_⟩
      · refine iff_of_false (by simp) ?_
        rintro ⟨v', hv', hle⟩
        injection hv' with hv'
        subst hv'
        omega
      · intro k' hk'
        exact mapGet_delete_ne k k' c hk'
      · intro k' v' h
        by_cases hk' : k' = k
        · rw [hk'] at h
          rw [mapGet_delete_self k c hn] at h
          exact Option.noConfusion h
        · rwa [mapGet_delete_ne k k' c hk'] at h
      · intro h
        exact Bool.noConfusion h
    · have hr : isBookCached cfg now k c = (true, c) := by
        rw [isBookCached]
        simp only [hm]
        rw [if_neg he]
      rw [hr]
      refine ⟨?_, Or.inl rfl, fun k' _ => rfl, fun k' v' h => h, fun _ => rfl⟩
      exact iff_of_true rfl ⟨v, rfl, by omega⟩

/-- Witness for C9 at a concrete cache holding one fresh entry. -/
theorem claim_C9_witness :
    ((isBookCached defaultConfig 7 "k" [("k", ⟨"k", [1], 0, 0⟩)]).1 = true ↔
        ∃ v, mapGet "k" [("k", ⟨"k", [1], 0, 0⟩)] = some v ∧
          7 - v.timestamp ≤ defaultConfig.MAX_CACHE_AGE) ∧
      ((isBookCached defaultConfig 7 "k" [("k", ⟨"k", [1], 0, 0⟩)]).2 =
          [("k", ⟨"k", [1], 0, 0⟩)] ∨
        (isBookCached defaultConfig 7 "k" [("k", ⟨"k", [1], 0, 0⟩)]).2 =
          mapDelete "k" [("k", ⟨"k", [1], 0, 0⟩)]) ∧
      (∀ k', k' ≠ "k" →
        mapGet k' (isBookCached defaultConfig 7 "k" [("k", ⟨"k", [1], 0, 0⟩)]).2 =
          mapGet k' [("k", ⟨"k", [1], 0, 0⟩)]) ∧
      (∀ k' v',
        mapGet k' (isBookCached defaultConfig 7 "k" [("k", ⟨"k", [1], 0, 0⟩)]).2 =
          some v' → mapGet k' [("k", ⟨"k", [1], 0, 0⟩)] = some v') ∧
      ((isBookCached defaultConfig 7 "k" [("k", ⟨"k", [1], 0, 0⟩)]).1 = true →
        (isBookCached defaultConfig 7 "k" [("k", ⟨"k", [1], 0, 0⟩)]).2 =
          [("k", ⟨"k", [1], 0, 0⟩)]) :=
  claim_C9 defaultConfig 7 "k" [("k", ⟨"k", [1], 0, 0⟩)] (by decide)

/-- Claim C5, counterexample: for a key that is already cached (fresh
entry, `isBookCached` true), a `preloadBook` whose byte-producing
operation would fail does NOT leave the cache without an entry for that
key — the pre-existing entry survives, because the preload skips before
ever reaching the failing operation.  This refutes the unrestricted
claim, which quantifies over every key. -/
theorem claim_C5_counterexample :
    mapGet "k" (preloadBook defaultConfig 0 (Except.error "boom") "k"
      [("k", ⟨"k", [1], 0, 0⟩)]).2 = some ⟨"k", [1], 0, 0⟩ := by decide

/-- Claim C5 as amended (preload failure absorption, for keys that are
not cached at call time): when `isBookCached` answers false and the
awaited race throws (rejection or `PRELOAD_TIMEOUT`), `preloadBook`
returns normally — the error is absorbed by the `catch`, the result
being exactly the post-check state with the invoked flag — and the cache
holds no entry (not even a partial one) for that key. -/
theorem claim_C5_amended (cfg : CacheConfig) (now : Nat) (e : String)
    (k : String) (c : Cache) (hn : (cacheKeys c).Nodup)
    (hnc : (isBookCached cfg now k c).1 = false) :
    preloadBook cfg now (Except.error e) k c =
      (true, (isBookCached cfg now k c).2) ∧
      mapGet k (preloadBook cfg now (Except.error e) k c).2 = none := by
  have hp : preloadBook cfg now (Except.error e) k c =
      (true, (isBookCached cfg now k c).2) := by
    rw [preloadBook]
    simp only [hnc, Bool.false_eq_true, if_false, preloadTry]
  refine ⟨hp, ?_⟩
  rw [hp]
  exact isBookCached_of_miss cfg now k c hn hnc

/-- Witness for the amended C5: a failing preload of an absent key leaves
the (singleton, other-keyed) cache without an entry for that key. -/
theorem claim_C5_amended_witness :
    preloadBook defaultConfig 3 (Except.error "timeout") "x"
      [("k", ⟨"k", [1], 0, 0⟩)] =
      (true, (isBookCached defaultConfig 3 "x" [("k", ⟨"k", [1], 0, 0⟩)]).2) ∧
      mapGet "x" (preloadBook defaultConfig 3 (Except.error "timeout") "x"
        [("k", ⟨"k", [1], 0, 0⟩)]).2 = none :=
  claim_C5_amended defaultConfig 3 "timeout" "x" [("k", ⟨"k", [1], 0, 0⟩)]
    (by decide) (by decide)

/-- Claim C7, counterexample: `cleanExpiredCache` is a `void` function;
called on an empty cache it returns `undefined` (embedded as `none`),
not the count `0` that the claim asserts it returns. -/
theorem claim_C7_counterexample :
    (cleanExpiredCache defaultConfig 5 ([] : Cache)).2 ≠ some 0 := by decide

/-- Claim C7 as amended (sweep contract without the count): the sweep
removes exactly the entries whose age exceeds `MAX_AGE` — the surviving
cache is the original filtered to entries within age, each untouched —
while the function itself returns no value (`undefined`); in particular
on an empty cache it removes nothing and completes normally. -/
theorem claim_C7_amended (cfg : CacheConfig) (now : Nat) (c : Cache)
    (hn : (cacheKeys c).Nodup) :
    (cleanExpiredCache cfg now c).1 =
      c.filter (fun kv => !(decide (now - kv.2.timestamp > cfg.MAX_CACHE_AGE))) ∧
      (cleanExpiredCache cfg now c).2 = none ∧
      cleanExpiredCache cfg now [] = ([], none) :=
  ⟨cleanExpiredCache_eq_filter cfg now c hn, rfl, rfl⟩

/-- Witness for the amended C7 on a two-entry cache with one expired
entry. -/
theorem claim_C7_amended_witness :
    (cleanExpiredCache defaultConfig 86400002 [("a", ⟨"a", [1], 0, 0⟩),
        ("b", ⟨"b", [2], 86400000, 86400000⟩)]).1 =
      ([("a", ⟨"a", [1], 0, 0⟩), ("b", ⟨"b", [2], 86400000, 86400000⟩)].filter
        (fun kv => !(decide (86400002 - kv.2.timestamp >
          defaultConfig.MAX_CACHE_AGE)))) ∧
      (cleanExpiredCache defaultConfig 86400002 [("a", ⟨"a", [1], 0, 0⟩),
        ("b", ⟨"b", [2], 86400000, 86400000⟩)]).2 = none ∧
      cleanExpiredCache defaultConfig 86400002 [] = ([], none) :=
  claim_C7_amended defaultConfig 86400002 [("a", ⟨"a", [1], 0, 0⟩),
    ("b", ⟨"b", [2], 86400000, 86400000⟩)] (by decide)

/-! ### Cache statistics -/

/-- Specification-side minimum of a list of timestamps. -/
def tsMin : List Nat → Option Nat
  | [] => none
  | t :: rest =>
    match tsMin rest with
    | none => some t
    | some m => some (min t m)

/-- Specification-side maximum of a list of timestamps. -/
def tsMax : List Nat → Option Nat
  | [] => none
  | t :: rest =>
    match tsMax rest with
    | none => some t
    | some m => some (max t m)

theorem tsMin_mem_le (l : List Nat) (m : Nat) (h : tsMin l = some m) :
    m ∈ l ∧ ∀ t ∈ l, m ≤ t := by
  induction l generalizing m with
  | nil => simp [tsMin] at h
  | cons t rest ih =>
    rw [tsMin] at h
    cases hr : tsMin rest with
    | none =>
      rw [hr] at h
      injection h with h
      subst h
      rw [(by cases rest with
        | nil => rfl
        | cons a b =>
          rw [tsMin] at hr
          cases hq : tsMin b <;> rw [hq] at hr <;> exact Option.noConfusion hr :
        rest = [])]
      simp
    | some m₀ =>
      rw [hr] at h
      simp only [Option.some.injEq] at h
      subst h
      obtain ⟨hmem, hle⟩ := ih m₀ hr
      constructor
      · by_cases hc : t ≤ m₀
        · simp [min_eq_left hc]
        · rw [min_eq_right (le_of_not_le hc)]
          exact List.mem_cons_of_mem _ hmem
      · intro u hu
        rcases List.mem_cons.mp hu with h1 | h1
        · rw [h1]
          exact min_le_left _ _
        · exact le_trans (min_le_right _ _) (hle u h1)

theorem tsMax_mem_ge (l : List Nat) (m : Nat) (h : tsMax l = some m) :
    m ∈ l ∧ ∀ t ∈ l, t ≤ m := by
  induction l generalizing m with
  | nil => simp [tsMax] at h
  | cons t rest ih =>
    rw [tsMax] at h
    cases hr : tsMax rest with
    | none =>
      rw [hr] at h
      injection h with h
      subst h
      rw [(by cases rest with
        | nil => rfl
        | cons a b =>
          rw [tsMax] at hr
          cases hq : tsMax b <;> rw [hq] at hr <;> exact Option.noConfusion hr :
        rest = [])]
      simp
    | some m₀ =>
      rw [hr] at h
      simp only [Option.some.injEq] at h
      subst h
      obtain ⟨hmem, hge⟩ := ih m₀ hr
      constructor
      · by_cases hc : m₀ ≤ t
        · simp [max_eq_left hc]
        · rw [max_eq_right (le_of_not_le hc)]
          exact List.mem_cons_of_mem _ hmem
      · intro u hu
        rcases List.mem_cons.mp hu with h1 | h1
        · rw [h1]
          exact le_max_left _ _
        · exact le_trans (hge u h1) (le_max_right _ _)

theorem tsMin_eq_none_iff (l : List Nat) : tsMin l = none ↔ l = [] := by
  cases l with
  | nil => simp [tsMin]
  | cons t rest =>
    rw [tsMin]
    cases hr : tsMin rest <;> simp

theorem tsMax_eq_none_iff (l : List Nat) : tsMax l = none ↔ l = [] := by
  cases l with
  | nil => simp [tsMax]
  | cons t rest =>
    rw [tsMax]
    cases hr : tsMax rest <;> simp

theorem foldl_min_eq_tsMin (l : List Nat) (s : Nat) :
    l.foldl min s = match tsMin l with | none => s | some m => min s m := by
  induction l generalizing s with
  | nil => rfl
  | cons t rest ih =>
    rw [List.foldl_cons, ih (min s t), tsMin]
    cases hr : tsMin rest with
    | none => simp
    | some m => simp [min_assoc]

theorem foldl_max_eq_tsMax (l : List Nat) (s : Nat) :
    l.foldl max s = match tsMax l with | none => s | some m => max s m := by
  induction l generalizing s with
  | nil => rfl
  | cons t rest ih =>
    rw [List.foldl_cons, ih (max s t), tsMax]
    cases hr : tsMax rest with
    | none => simp
    | some m => simp [max_assoc]

theorem getCacheStats_fold_split (c : Cache) (x y z : Nat) :
    c.foldl
      (fun (a : Nat × Nat × Nat) cached =>
        (a.1 + cached.2.arrayBuffer.length,
          min a.2.1 cached.2.timestamp,
          max a.2.2 cached.2.timestamp)) (x, y, z) =
      (c.foldl (fun a cached => a + cached.2.arrayBuffer.length) x,
        (c.map (fun cached => cached.2.timestamp)).foldl min y,
        (c.map (fun cached => cached.2.timestamp)).foldl max z) := by
  induction c generalizing x y z with
  | nil => rfl
  | cons e rest ih =>
    rw [List.foldl_cons, ih, List.map_cons, List.foldl_cons, List.foldl_cons,
      List.foldl_cons]

theorem getCacheStats_oldest (now : Nat) (c : Cache) :
    (getCacheStats now c).oldestCache =
      match tsMin (c.map (fun cached => cached.2.timestamp)) with
      | none => now
      | some m => min now m := by
  rw [getCacheStats]
  simp only [getCacheStats_fold_split]
  exact foldl_min_eq_tsMin _ now

theorem getCacheStats_newest (now : Nat) (c : Cache) :
    (getCacheStats now c).newestCache =
      match tsMax (c.map (fun cached => cached.2.timestamp)) with
      | none => 0
      | some m => max 0 m := by
  rw [getCacheStats]
  simp only [getCacheStats_fold_split]
  exact foldl_max_eq_tsMax _ 0

/-- Claim C10 (empty-cache stats sentinels): an empty cache reports
count 0, zero bytes, newest 0 and oldest equal to the clock, so with a
positive clock the reported oldest strictly exceeds the reported newest
exactly when the cache is empty; on a non-empty cache the oldest is the
minimum `timestamp` capped above by the clock and the newest is the
maximum `timestamp`. -/
theorem claim_C10 (now : Nat) (c : Cache) :
    getCacheStats now ([] : Cache) =
      ⟨0, 0, now, 0⟩ ∧
      (0 < now →
        ((getCacheStats now c).newestCache < (getCacheStats now c).oldestCache ↔
          c = [])) ∧
      (∀ m, tsMin (c.map (fun cached => cached.2.timestamp)) = some m →
        (getCacheStats now c).oldestCache = min now m) ∧
      (∀ M, tsMax (c.map (fun cached => cached.2.timestamp)) = some M →
        (getCacheStats now c).newestCache = M) := by
  refine ⟨rfl, ?_, ?_, ?_⟩
  · intro hpos
    cases hc : c with
    | nil =>
      simp only [hc]
      rw [show getCacheStats now ([] : Cache) = ⟨0, 0, now, 0⟩ from rfl]
      simpa using hpos
    | cons e rest =>
      rw [← hc]
      simp only [iff_false_intro (hc ▸ List.cons_ne_nil e rest), iff_false,
        not_lt]
      cases hm : tsMin (c.map (fun cached => cached.2.timestamp)) with
      | none =>
        rw [tsMin_eq_none_iff, List.map_eq_nil_iff] at hm
        exact absurd hm (hc ▸ List.cons_ne_nil e rest)
      | some m =>
        cases hM : tsMax (c.map (fun cached => cached.2.timestamp)) with
        | none =>
          rw [tsMax_eq_none_iff, List.map_eq_nil_iff] at hM
          exact absurd hM (hc ▸ List.cons_ne_nil e rest)
        | some M =>
          simp only [getCacheStats_oldest, getCacheStats_newest, hm, hM]
          have h1 : m ≤ M :=
            (tsMax_mem_ge _ M hM).2 m (tsMin_mem_le _ m hm).1
          have h2 : min now m ≤ m := min_le_right _ _
          exact le_trans (le_trans h2 h1) (le_max_right 0 M)
  · intro m hm
    rw [getCacheStats_oldest, hm]
  · intro M hM
    simp only [getCacheStats_newest, hM]
    exact max_eq_right (Nat.zero_le M)

/-- Witness for C10 on a two-entry cache (timestamps 5 and 50) at clock
100, and on the empty cache. -/
theorem claim_C10_witness :
    getCacheStats 100 ([] : Cache) = ⟨0, 0, 100, 0⟩ ∧
      ((getCacheStats 100 [("a", ⟨"a", [1, 2], 5, 5⟩),
          ("b", ⟨"b", [3], 50, 50⟩)]).newestCache <
        (getCacheStats 100 [("a", ⟨"a", [1, 2], 5, 5⟩),
          ("b", ⟨"b", [3], 50, 50⟩)]).oldestCache ↔
        ([("a", ⟨"a", [1, 2], 5, 5⟩), ("b", ⟨"b", [3], 50, 50⟩)] : Cache) = []) ∧
      (getCacheStats 100 [("a", ⟨"a", [1, 2], 5, 5⟩),
        ("b", ⟨"b", [3], 50, 50⟩)]).oldestCache = min 100 5 ∧
      (getCacheStats 100 [("a", ⟨"a", [1, 2], 5, 5⟩),
        ("b", ⟨"b", [3], 50, 50⟩)]).newestCache = 50 :=
  ⟨(claim_C10 100 [("a", ⟨"a", [1, 2], 5, 5⟩), ("b", ⟨"b", [3], 50, 50⟩)]).1,
    (claim_C10 100 [("a", ⟨"a", [1, 2], 5, 5⟩),
      ("b", ⟨"b", [3], 50, 50⟩)]).2.1 (by decide),
    (claim_C10 100 [("a", ⟨"a", [1, 2], 5, 5⟩),
      ("b", ⟨"b", [3], 50, 50⟩)]).2.2.1 5 (by decide),
    (claim_C10 100 [("a", ⟨"a", [1, 2], 5, 5⟩),
      ("b", ⟨"b", [3], 50, 50⟩)]).2.2.2 50 (by decide)⟩

/-- Claim C2, counterexample: with five entries whose `lastAccessed`
equals the current time (five books cached within the same millisecond),
a sixth `cacheBook` finds the cache at capacity after a no-op sweep, yet
evicts nothing — the selection loop is seeded with `oldestTime =
Date.now()` and only replaces on a strictly smaller value, so
`oldestKey` stays `""` (falsy) and the delete is skipped — leaving six
entries instead of the claimed `MAX_ENTRIES`. -/
theorem claim_C2_counterexample :
    (cleanExpiredCache defaultConfig 0
        [("a", ⟨"a", [1], 0, 0⟩), ("b", ⟨"b", [2], 0, 0⟩),
         ("c", ⟨"c", [3], 0, 0⟩), ("d", ⟨"d", [4], 0, 0⟩),
         ("e", ⟨"e", [5], 0, 0⟩)]).1 =
      [("a", ⟨"a", [1], 0, 0⟩), ("b", ⟨"b", [2], 0, 0⟩),
       ("c", ⟨"c", [3], 0, 0⟩), ("d", ⟨"d", [4], 0, 0⟩),
       ("e", ⟨"e", [5], 0, 0⟩)] ∧
      defaultConfig.MAX_CACHE_SIZE = 5 ∧
      (cacheBook defaultConfig 0 "f" [9]
        [("a", ⟨"a", [1], 0, 0⟩), ("b", ⟨"b", [2], 0, 0⟩),
         ("c", ⟨"c", [3], 0, 0⟩), ("d", ⟨"d", [4], 0, 0⟩),
         ("e", ⟨"e", [5], 0, 0⟩)]).length = 6 := by decide

/-- Claim C2 as amended (LRU eviction under the conditions the code
actually needs): if after the sweep the cache is at or above capacity,
some entry was last accessed strictly before the current time, and every
key is nonempty, then `cacheBook` deletes exactly one entry — the first
one in iteration order attaining the minimal `lastAccessed`
(`specLruKey`) — and then inserts the new entry; if moreover the swept
cache held exactly `MAX_ENTRIES` entries and the inserted key is fresh,
the final size is again `MAX_ENTRIES`. -/
theorem claim_C2_amended (cfg : CacheConfig) (now : Nat) (bookId : String)
    (buf : List Nat) (c : Cache)
    (hcap : cfg.MAX_CACHE_SIZE ≤ (cleanExpiredCache cfg now c).1.length)
    (hex : ∃ e ∈ (cleanExpiredCache cfg now c).1, e.2.lastAccessed < now)
    (hkeys : ∀ e ∈ (cleanExpiredCache cfg now c).1, e.1 ≠ "") :
    ∃ p, specLruKey (cleanExpiredCache cfg now c).1 = some p ∧
      p.1 ∈ cacheKeys (cleanExpiredCache cfg now c).1 ∧
      cacheBook cfg now bookId buf c =
        mapSet bookId
          { id := bookId, arrayBuffer := buf, timestamp := now, lastAccessed := now }
          (mapDelete p.1 (cleanExpiredCache cfg now c).1) ∧
      ((cleanExpiredCache cfg now c).1.length = cfg.MAX_CACHE_SIZE →
        bookId ∉ cacheKeys (cleanExpiredCache cfg now c).1 →
        (cacheBook cfg now bookId buf c).length = cfg.MAX_CACHE_SIZE) := by
  obtain ⟨p, hsp, hev⟩ :=
    evictLoop_eq_specLruKey (cleanExpiredCache cfg now c).1 "" now hex
  obtain ⟨⟨w, hw, hwla⟩, hub⟩ := specLruKey_spec _ p hsp
  have hpmem : p.1 ∈ cacheKeys (cleanExpiredCache cfg now c).1 :=
    List.mem_map.mpr ⟨(p.1, w), hw, rfl⟩
  have hpne : p.1 ≠ "" := hkeys (p.1, w) hw
  have hmain : cacheBook cfg now bookId buf c =
      mapSet bookId
        { id := bookId, arrayBuffer := buf, timestamp := now, lastAccessed := now }
        (mapDelete p.1 (cleanExpiredCache cfg now c).1) := by
    rw [cacheBook]
    simp only [hev]
    rw [if_pos hcap, if_pos hpne]
  refine ⟨p, hsp, hpmem, hmain, ?_⟩
  intro hlen hfresh
  rw [hmain]
  have hfresh' : bookId ∉ cacheKeys (mapDelete p.1 (cleanExpiredCache cfg now c).1) :=
    fun hmem => hfresh ((keys_mapDelete_sublist p.1 _).mem hmem)
  rw [mapSet_of_not_mem _ _ _ hfresh', List.length_append, List.length_singleton]
  have := length_mapDelete_of_mem p.1 (cleanExpiredCache cfg now c).1 hpmem
  omega

/-- Witness for the amended C2: five entries with distinct access times,
a sixth put at a strictly later time evicts exactly the least-recently
used one. -/
theorem claim_C2_amended_witness :
    ∃ p, specLruKey (cleanExpiredCache defaultConfig 5
        [("a", ⟨"a", [1], 0, 0⟩), ("b", ⟨"b", [2], 1, 1⟩),
         ("c", ⟨"c", [3], 2, 2⟩), ("d", ⟨"d", [4], 3, 3⟩),
         ("e", ⟨"e", [5], 4, 4⟩)]).1 = some p ∧
      p.1 ∈ cacheKeys (cleanExpiredCache defaultConfig 5
        [("a", ⟨"a", [1], 0, 0⟩), ("b", ⟨"b", [2], 1, 1⟩),
         ("c", ⟨"c", [3], 2, 2⟩), ("d", ⟨"d", [4], 3, 3⟩),
         ("e", ⟨"e", [5], 4, 4⟩)]).1 ∧
      cacheBook defaultConfig 5 "f" [9]
        [("a", ⟨"a", [1], 0, 0⟩), ("b", ⟨"b", [2], 1, 1⟩),
         ("c", ⟨"c", [3], 2, 2⟩), ("d", ⟨"d", [4], 3, 3⟩),
         ("e", ⟨"e", [5], 4, 4⟩)] =
        mapSet "f"
          { id := "f", arrayBuffer := [9], timestamp := 5, lastAccessed := 5 }
          (mapDelete p.1 (cleanExpiredCache defaultConfig 5
            [("a", ⟨"a", [1], 0, 0⟩), ("b", ⟨"b", [2], 1, 1⟩),
             ("c", ⟨"c", [3], 2, 2⟩), ("d", ⟨"d", [4], 3, 3⟩),
             ("e", ⟨"e", [5], 4, 4⟩)]).1) ∧
      ((cleanExpiredCache defaultConfig 5
          [("a", ⟨"a", [1], 0, 0⟩), ("b", ⟨"b", [2], 1, 1⟩),
           ("c", ⟨"c", [3], 2, 2⟩), ("d", ⟨"d", [4], 3, 3⟩),
           ("e", ⟨"e", [5], 4, 4⟩)]).1.length = defaultConfig.MAX_CACHE_SIZE →
        "f" ∉ cacheKeys (cleanExpiredCache defaultConfig 5
          [("a", ⟨"a", [1], 0, 0⟩), ("b", ⟨"b", [2], 1, 1⟩),
           ("c", ⟨"c", [3], 2, 2⟩), ("d", ⟨"d", [4], 3, 3⟩),
           ("e", ⟨"e", [5], 4, 4⟩)]).1 →
        (cacheBook defaultConfig 5 "f" [9]
          [("a", ⟨"a", [1], 0, 0⟩), ("b", ⟨"b", [2], 1, 1⟩),
           ("c", ⟨"c", [3], 2, 2⟩), ("d", ⟨"d", [4], 3, 3⟩),
           ("e", ⟨"e", [5], 4, 4⟩)]).length = defaultConfig.MAX_CACHE_SIZE) :=
  claim_C2_amended defaultConfig 5 "f" [9]
    [("a", ⟨"a", [1], 0, 0⟩), ("b", ⟨"b", [2], 1, 1⟩),
     ("c", ⟨"c", [3], 2, 2⟩), ("d", ⟨"d", [4], 3, 3⟩),
     ("e", ⟨"e", [5], 4, 4⟩)]
    (by decide) (by decide) (by decide)

/-- The spec scenario configuration for C8: `MAX_ENTRIES = 2`, default
age and timeout. -/
def scenarioConfig : CacheConfig :=
  { MAX_CACHE_SIZE := 2
    MAX_CACHE_AGE := 24 * 60 * 60 * 1000
    PRELOAD_TIMEOUT := 10000 }

/-- The C8 scenario: put "a" at t=0, put "b" at t=1, get "a" at t=2,
put "c" at t=3, under `scenarioConfig`. -/
def scenarioState : Cache :=
  cacheBook scenarioConfig 3 "c" [30]
    (getCachedBook scenarioConfig 2 "a"
      (cacheBook scenarioConfig 1 "b" [20]
        (cacheBook scenarioConfig 0 "a" [10] []))).2

/-- Claim C8 (recency refresh): an unexpired `getCachedBook` on key `a`
rewrites its entry's `lastAccessed` to the current time, and a
subsequent `cacheBook` of a different key — even one that triggers the
capacity branch — does not evict `a` whenever some entry of the swept
cache has a strictly smaller `lastAccessed`; in the spec's concrete
scenario (`MAX_ENTRIES = 2`; puts of "a", "b", get of "a", put of "c")
entry "b" is evicted while "a" (with its original buffer and refreshed
access time) and "c" remain. -/
theorem claim_C8 (cfg : CacheConfig) (g n' : Nat) (a bookId : String)
    (buf : List Nat) (c : Cache) (va : CachedBook)
    (hn : (cacheKeys c).Nodup)
    (hva : mapGet a c = some va)
    (h1 : g - va.timestamp ≤ cfg.MAX_CACHE_AGE)
    (h2 : n' - va.timestamp ≤ cfg.MAX_CACHE_AGE)
    (h3 : g ≤ n')
    (hbid : bookId ≠ a)
    (hb : ∃ e ∈ (cleanExpiredCache cfg n' (getCachedBook cfg g a c).2).1,
      e.2.lastAccessed < g) :
    mapGet a (getCachedBook cfg g a c).2 =
      some { va with lastAccessed := g } ∧
      mapGet a (cacheBook cfg n' bookId buf (getCachedBook cfg g a c).2) =
        some { va with lastAccessed := g } ∧
      cacheKeys scenarioState = ["a", "c"] ∧
      mapGet "b" scenarioState = none ∧
      mapGet "a" scenarioState = some ⟨"a", [10], 0, 2⟩ ∧
      mapGet "c" scenarioState = some ⟨"c", [30], 3, 3⟩ := by
  have hg : (getCachedBook cfg g a c).2 =
      mapSet a { va with lastAccessed := g } c := by
    rw [getCachedBook]
    simp only [hva]
    rw [if_neg (by omega)]
  have hget2 : mapGet a (getCachedBook cfg g a c).2 =
      some { va with lastAccessed := g } := by
    rw [hg]
    exact mapGet_set_self _ _ _
  refine ⟨hget2, ?_, by decide, by decide, by decide, by decide⟩
  have hn2 : (cacheKeys (getCachedBook cfg g a c).2).Nodup := by
    rw [hg]
    exact nodup_keys_mapSet _ _ _ hn
  have hget3 : mapGet a
      (cleanExpiredCache cfg n' (getCachedBook cfg g a c).2).1 =
      some { va with lastAccessed := g } := by
    rw [cleanExpiredCache_eq_filter _ _ _ hn2]
    exact mapGet_filter_pos hn2 hget2 (by simp; omega)
  have hn3 : (cacheKeys
      (cleanExpiredCache cfg n' (getCachedBook cfg g a c).2).1).Nodup := by
    rw [cleanExpiredCache_eq_filter _ _ _ hn2]
    exact List.Nodup.sublist
      (List.Sublist.map Prod.fst (List.filter_sublist _)) hn2
  rw [cacheBook]
  by_cases hcap : cfg.MAX_CACHE_SIZE ≤
      (cleanExpiredCache cfg n' (getCachedBook cfg g a c).2).1.length
  · have hex : ∃ e ∈ (cleanExpiredCache cfg n' (getCachedBook cfg g a c).2).1,
        e.2.lastAccessed < n' := by
      obtain ⟨e, he, hlt⟩ := hb
      exact ⟨e, he, lt_of_lt_of_le hlt h3⟩
    obtain ⟨p, hsp, hev⟩ := evictLoop_eq_specLruKey _ "" n' hex
    obtain ⟨⟨w, hw, hwla⟩, hub⟩ := specLruKey_spec _ p hsp
    have hpa : p.1 ≠ a := by
      intro hpa
      obtain ⟨e, he, hlt⟩ := hb
      have hwget : mapGet p.1
          (cleanExpiredCache cfg n' (getCachedBook cfg g a c).2).1 = some w :=
        mapGet_of_mem_nodup hn3 hw
      rw [hpa, hget3] at hwget
      injection hwget with hwget
      have : p.2 = g := by rw [← hwla, ← hwget]
      have := hub e he
      omega
    simp only [hev]
    rw [if_pos hcap]
    by_cases hsel : p.1 ≠ ""
    · rw [if_pos hsel, mapGet_set_ne _ _ _ _ (Ne.symm hbid),
        mapGet_delete_ne _ _ _ (Ne.symm hpa)]
      exact hget3
    · rw [if_neg hsel, mapGet_set_ne _ _ _ _ (Ne.symm hbid)]
      exact hget3
  · rw [if_neg hcap, mapGet_set_ne _ _ _ _ (Ne.symm hbid)]
    exact hget3

/-- Witness for C8 at the scenario inputs: cache holding "a" (accessed
at 0) and "b" (accessed at 1), get of "a" at 2, put of "c" at 3. -/
theorem claim_C8_witness :
    mapGet "a" (getCachedBook scenarioConfig 2 "a"
        [("a", ⟨"a", [10], 0, 0⟩), ("b", ⟨"b", [20], 1, 1⟩)]).2 =
      some ⟨"a", [10], 0, 2⟩ ∧
      mapGet "a" (cacheBook scenarioConfig 3 "c" [30]
        (getCachedBook scenarioConfig 2 "a"
          [("a", ⟨"a", [10], 0, 0⟩), ("b", ⟨"b", [20], 1, 1⟩)]).2) =
        some ⟨"a", [10], 0, 2⟩ ∧
      cacheKeys scenarioState = ["a", "c"] ∧
      mapGet "b" scenarioState = none ∧
      mapGet "a" scenarioState = some ⟨"a", [10], 0, 2⟩ ∧
      mapGet "c" scenarioState = some ⟨"c", [30], 3, 3⟩ :=
  claim_C8 scenarioConfig 2 3 "a" "c" [30]
    [("a", ⟨"a", [10], 0, 0⟩), ("b", ⟨"b", [20], 1, 1⟩)] ⟨"a", [10], 0, 0⟩
    (by decide) (by decide) (by decide) (by decide) (by decide) (by decide)
    (by decide)

/-! ### Operation traces and the capacity invariant -/

/-- One cache operation of the public interface, tagged with the inputs
it takes; a `preloadOp` carries the settled outcome of its byte race. -/
inductive CacheOp where
  | isCachedOp (k : String)
  | getOp (k : String)
  | putOp (k : String) (buf : List Nat)
  | preloadOp (race : RaceOutcome) (k : String)
  | sweepOp
  | clearOp
  deriving Repr

/-- The keys an operation may insert under (put and preload) are the
ones that must be nonempty for eviction to work. -/
def opKeyOK : CacheOp → Bool
  | CacheOp.putOp k _ => k != ""
  | CacheOp.preloadOp _ k => k != ""
  | _ => true

/-- Execute one timestamped operation against the cache state. -/
def execOp (cfg : CacheConfig) (c : Cache) : Nat × CacheOp → Cache
  | (now, CacheOp.isCachedOp k) => (isBookCached cfg now k c).2
  | (now, CacheOp.getOp k) => (getCachedBook cfg now k c).2
  | (now, CacheOp.putOp k buf) => cacheBook cfg now k buf c
  | (now, CacheOp.preloadOp race k) => (preloadBook cfg now race k c).2
  | (now, CacheOp.sweepOp) => (cleanExpiredCache cfg now c).1
  | (_, CacheOp.clearOp) => clearAllCache c

/-- Execute a timestamped operation sequence from a starting state. -/
def execTrace (cfg : CacheConfig) (ops : List (Nat × CacheOp)) (c : Cache) : Cache :=
  ops.foldl (execOp cfg) c

/-- The stateful well-formedness the capacity argument maintains: unique
keys, no empty-string key, and size within the bound. -/
def CacheOK (cfg : CacheConfig) (c : Cache) : Prop :=
  (cacheKeys c).Nodup ∧ (∀ e ∈ c, e.1 ≠ "") ∧ c.length ≤ cfg.MAX_CACHE_SIZE

theorem cacheOK_of_sublist (cfg : CacheConfig) {c c' : Cache}
    (hs : c'.Sublist c) (h : CacheOK cfg c) : CacheOK cfg c' :=
  ⟨List.Nodup.sublist (List.Sublist.map Prod.fst hs) h.1,
    fun e he => h.2.1 e (hs.mem he),
    le_trans hs.length_le h.2.2⟩

theorem isBookCached_state (cfg : CacheConfig) (now : Nat) (k : String)
    (c : Cache) :
    (isBookCached cfg now k c).2 = c ∨
      (isBookCached cfg now k c).2 = mapDelete k c := by
  rw [isBookCached]
  cases hm : mapGet k c with
  | none => exact Or.inl rfl
  | some v =>
    simp only [hm]
    by_cases he : now - v.timestamp > cfg.MAX_CACHE_AGE
    · rw [if_pos he]
      exact Or.inr rfl
    · rw [if_neg he]
      exact Or.inl rfl

theorem cacheBook_step (cfg : CacheConfig) (now : Nat) (k : String)
    (buf : List Nat) (c : Cache) (hM : 1 ≤ cfg.MAX_CACHE_SIZE)
    (hok : CacheOK cfg c) (hla : ∀ e ∈ c, e.2.lastAccessed < now)
    (hk : k ≠ "") :
    CacheOK cfg (cacheBook cfg now k buf c) ∧
      ∀ e ∈ cacheBook cfg now k buf c, e.2.lastAccessed ≤ now := by
  obtain ⟨hn, hke, hlen⟩ := hok
  have hsub1 : ((cleanExpiredCache cfg now c).1).Sublist c := by
    rw [cleanExpiredCache_eq_filter cfg now c hn]
    exact List.filter_sublist c
  have hok1 : CacheOK cfg (cleanExpiredCache cfg now c).1 :=
    cacheOK_of_sublist cfg hsub1 ⟨hn, hke, hlen⟩
  obtain ⟨hn1, hke1, hlen1⟩ := hok1
  have hla1 : ∀ e ∈ (cleanExpiredCache cfg now c).1, e.2.lastAccessed < now :=
    fun e he => hla e (hsub1.mem he)
  rw [cacheBook]
  by_cases hcap : cfg.MAX_CACHE_SIZE ≤ (cleanExpiredCache cfg now c).1.length
  · have hne : (cleanExpiredCache cfg now c).1 ≠ [] := by
      intro h0
      rw [h0] at hcap
      simp at hcap
      omega
    obtain ⟨e0, he0⟩ := List.exists_mem_of_ne_nil _ hne
    obtain ⟨p, hsp, hev⟩ := evictLoop_eq_specLruKey _ "" now ⟨e0, he0, hla1 e0 he0⟩
    obtain ⟨⟨w, hw, hwla⟩, hub⟩ := specLruKey_spec _ p hsp
    have hpmem : p.1 ∈ cacheKeys (cleanExpiredCache cfg now c).1 :=
      List.mem_map.mpr ⟨(p.1, w), hw, rfl⟩
    have hpne : p.1 ≠ "" := hke1 (p.1, w) hw
    simp only [hev]
    rw [if_pos hcap, if_pos hpne]
    have hsub2 : (mapDelete p.1 (cleanExpiredCache cfg now c).1).Sublist
        (cleanExpiredCache cfg now c).1 := mapDelete_sublist _ _
    have hn2 := nodup_keys_mapDelete p.1 _ hn1
    have hlen2 := length_mapDelete_of_mem p.1 _ hpmem
    refine ⟨⟨nodup_keys_mapSet _ _ _ hn2, ?_, ?_⟩, ?_⟩
    · intro e he
      rcases mapSet_mem_entries _ _ _ e he with h1 | h1
      · rw [h1]
        exact hk
      · exact hke1 e (hsub2.mem h1)
    · calc (mapSet k _ (mapDelete p.1 (cleanExpiredCache cfg now c).1)).length
          ≤ (mapDelete p.1 (cleanExpiredCache cfg now c).1).length + 1 :=
            length_mapSet_le _ _ _
        _ = (cleanExpiredCache cfg now c).1.length := hlen2
        _ ≤ cfg.MAX_CACHE_SIZE := hlen1
    · intro e he
      rcases mapSet_mem_entries _ _ _ e he with h1 | h1
      · rw [h1]
      · exact le_of_lt (hla1 e (hsub2.mem h1))
  · rw [if_neg hcap]
    refine ⟨⟨nodup_keys_mapSet _ _ _ hn1, ?_, ?_⟩, ?_⟩
    · intro e he
      rcases mapSet_mem_entries _ _ _ e he with h1 | h1
      · rw [h1]
        exact hk
      · exact hke1 e h1
    · calc (mapSet k _ (cleanExpiredCache cfg now c).1).length
          ≤ (cleanExpiredCache cfg now c).1.length + 1 := length_mapSet_le _ _ _
        _ ≤ cfg.MAX_CACHE_SIZE := by omega
    · intro e he
      rcases mapSet_mem_entries _ _ _ e he with h1 | h1
      · rw [h1]
      · exact le_of_lt (hla1 e h1)

theorem execOp_step (cfg : CacheConfig) (now : Nat) (op : CacheOp) (c : Cache)
    (hM : 1 ≤ cfg.MAX_CACHE_SIZE) (hok : CacheOK cfg c)
    (hla : ∀ e ∈ c, e.2.lastAccessed < now) (hkey : opKeyOK op = true) :
    CacheOK cfg (execOp cfg c (now, op)) ∧
      ∀ e ∈ execOp cfg c (now, op), e.2.lastAccessed ≤ now := by
  obtain ⟨hn, hke, hlen⟩ := hok
  cases op with
  | isCachedOp k =>
    simp only [execOp]
    rcases isBookCached_state cfg now k c with h | h <;> rw [h]
    · exact ⟨⟨hn, hke, hlen⟩, fun e he => le_of_lt (hla e he)⟩
    · refine ⟨cacheOK_of_sublist cfg (mapDelete_sublist k c) ⟨hn, hke, hlen⟩, ?_⟩
      exact fun e he => le_of_lt (hla e ((mapDelete_sublist k c).mem he))
  | getOp k =>
    simp only [execOp]
    rw [getCachedBook]
    cases hm : mapGet k c with
    | none => exact ⟨⟨hn, hke, hlen⟩, fun e he => le_of_lt (hla e he)⟩
    | some v =>
      simp only [hm]
      by_cases he : now - v.timestamp > cfg.MAX_CACHE_AGE
      · rw [if_pos he]
        refine ⟨cacheOK_of_sublist cfg (mapDelete_sublist k c) ⟨hn, hke, hlen⟩, ?_⟩
        exact fun e he' => le_of_lt (hla e ((mapDelete_sublist k c).mem he'))
      · rw [if_neg he]
        have hvmem : (k, v) ∈ c := mem_of_mapGet_eq_some hm
        have hkmem : k ∈ cacheKeys c := List.mem_map.mpr ⟨(k, v), hvmem, rfl⟩
        refine ⟨⟨nodup_keys_mapSet _ _ _ hn, ?_, ?_⟩, ?_⟩
        · intro e he'
          rcases mapSet_mem_entries _ _ _ e he' with h1 | h1
          · rw [h1]
            exact hke (k, v) hvmem
          · exact hke e h1
        · rw [length_mapSet_of_mem _ _ _ hkmem]
          exact hlen
        · intro e he'
          rcases mapSet_mem_entries _ _ _ e he' with h1 | h1
          · rw [h1]
          · exact le_of_lt (hla e h1)
  | putOp k buf =>
    simp only [execOp]
    exact cacheBook_step cfg now k buf c hM ⟨hn, hke, hlen⟩ hla
      (by simpa [opKeyOK] using hkey)
  | preloadOp race k =>
    simp only [execOp]
    by_cases hc : (isBookCached cfg now k c).1 = true
    · have hres : (preloadBook cfg now race k c).2 = c := by
        rw [preloadBook]
        simp [isBookCached_of_hit cfg now k c hc]
      rw [hres]
      exact ⟨⟨hn, hke, hlen⟩, fun e he => le_of_lt (hla e he)⟩
    · rw [Bool.not_eq_true] at hc
      have hok2 : CacheOK cfg (isBookCached cfg now k c).2 ∧
          ∀ e ∈ (isBookCached cfg now k c).2, e.2.lastAccessed < now := by
        rcases isBookCached_state cfg now k c with h | h <;> rw [h]
        · exact ⟨⟨hn, hke, hlen⟩, hla⟩
        · exact ⟨cacheOK_of_sublist cfg (mapDelete_sublist k c) ⟨hn, hke, hlen⟩,
            fun e he => hla e ((mapDelete_sublist k c).mem he)⟩
      have hres : (preloadBook cfg now race k c).2 = (isBookCached cfg now k c).2 ∨
          ∃ buf, (preloadBook cfg now race k c).2 =
            cacheBook cfg now k buf (isBookCached cfg now k c).2 := by
        rw [preloadBook]
        simp only [hc, Bool.false_eq_true, if_false]
        cases race with
        | ok buf =>
          right
          exact ⟨buf, rfl⟩
        | error e =>
          left
          rfl
      rcases hres with h | ⟨buf, h⟩ <;> rw [h]
      · exact ⟨hok2.1, fun e he => le_of_lt (hok2.2 e he)⟩
      · exact cacheBook_step cfg now k buf _ hM hok2.1 hok2.2
          (by simpa [opKeyOK] using hkey)
  | sweepOp =>
    simp only [execOp]
    have hsub : ((cleanExpiredCache cfg now c).1).Sublist c := by
      rw [cleanExpiredCache_eq_filter cfg now c hn]
      exact List.filter_sublist c
    exact ⟨cacheOK_of_sublist cfg hsub ⟨hn, hke, hlen⟩,
      fun e he => le_of_lt (hla e (hsub.mem he))⟩
  | clearOp =>
    simp only [execOp, clearAllCache]
    exact ⟨⟨List.nodup_nil, by simp, by simp⟩, by simp⟩

theorem execTrace_inv (cfg : CacheConfig) (hM : 1 ≤ cfg.MAX_CACHE_SIZE) :
    ∀ (ops : List (Nat × CacheOp)) (c : Cache), CacheOK cfg c →
      (∀ op ∈ ops, opKeyOK op.2 = true) →
      List.Chain' (fun p q : Nat × CacheOp => p.1 < q.1) ops →
      (∀ p ∈ ops.head?, ∀ e ∈ c, e.2.lastAccessed < p.1) →
      ∀ pre suf, ops = pre ++ suf → CacheOK cfg (execTrace cfg pre c) := by
  intro ops
  induction ops with
  | nil =>
    intro c hok _ _ _ pre suf hsplit
    obtain ⟨rfl, rfl⟩ := List.append_eq_nil.mp hsplit.symm
    exact hok
  | cons hd rest ih =>
    intro c hok hkeys htimes hhead pre suf hsplit
    cases pre with
    | nil => exact hok
    | cons p0 pre' =>
      rw [List.cons_append] at hsplit
      injection hsplit with h1 h2
      subst h1
      obtain ⟨hh, ht⟩ := List.chain'_cons'.mp htimes
      obtain ⟨now, op⟩ := hd
      have hstep := execOp_step cfg now op c hM hok
        (fun e he => hhead (now, op) rfl e he)
        (hkeys (now, op) (List.mem_cons_self _ _))
      exact ih (execOp cfg c (now, op)) hstep.1
        (fun op' hop' => hkeys op' (List.mem_cons_of_mem _ hop'))
        ht
        (fun q hq e he => lt_of_le_of_lt (hstep.2 e he) (hh q hq))
        pre' suf h2

/-- Claim C1, counterexample: two operation sequences of puts drive the
cache to six entries under the default `MAX_ENTRIES = 5`.  In the first,
the earliest key is the empty string, which the eviction guard
`if (oldestKey)` treats as falsy, so nothing is ever evicted; in the
second, all six puts share one millisecond, so no entry's `lastAccessed`
is strictly below the `Date.now()` seed and no candidate is selected. -/
theorem claim_C1_counterexample :
    (execTrace defaultConfig
      [(0, CacheOp.putOp "" [0]), (1, CacheOp.putOp "a" [1]),
       (2, CacheOp.putOp "b" [2]), (3, CacheOp.putOp "c" [3]),
       (4, CacheOp.putOp "d" [4]), (5, CacheOp.putOp "e" [5])] []).length = 6 ∧
      (execTrace defaultConfig
        [(0, CacheOp.putOp "a" [1]), (0, CacheOp.putOp "b" [2]),
         (0, CacheOp.putOp "c" [3]), (0, CacheOp.putOp "d" [4]),
         (0, CacheOp.putOp "e" [5]), (0, CacheOp.putOp "f" [6])] []).length =
        6 := by decide

/-- Claim C1 as amended (capacity invariant under the conditions the code
actually needs): starting from the empty cache, for every sequence of
operations whose put/preload keys are nonempty and whose timestamps are
strictly increasing, and any configuration with `MAX_ENTRIES ≥ 1`, the
number of entries after every prefix of the sequence is at most
`MAX_ENTRIES`. -/
theorem claim_C1_amended (cfg : CacheConfig) (hM : 1 ≤ cfg.MAX_CACHE_SIZE)
    (ops : List (Nat × CacheOp))
    (hkeys : ∀ op ∈ ops, opKeyOK op.2 = true)
    (htimes : List.Chain' (fun p q : Nat × CacheOp => p.1 < q.1) ops)
    (pre suf : List (Nat × CacheOp)) (hsplit : ops = pre ++ suf) :
    (execTrace cfg pre []).length ≤ cfg.MAX_CACHE_SIZE :=
  (execTrace_inv cfg hM ops []
      ⟨List.nodup_nil, fun e he => absurd he (List.not_mem_nil e), Nat.zero_le _⟩
      hkeys htimes (fun _ _ e he => absurd he (List.not_mem_nil e))
      pre suf hsplit).2.2

/-- Witness for the amended C1: seven distinct-key puts at strictly
increasing times stay within the default bound of five. -/
theorem claim_C1_amended_witness :
    (execTrace defaultConfig
      [(1, CacheOp.putOp "a" [1]), (2, CacheOp.putOp "b" [2]),
       (3, CacheOp.putOp "c" [3]), (4, CacheOp.putOp "d" [4]),
       (5, CacheOp.putOp "e" [5]), (6, CacheOp.putOp "f" [6]),
       (7, CacheOp.putOp "g" [7])] []).length ≤
      defaultConfig.MAX_CACHE_SIZE :=
  claim_C1_amended defaultConfig (by decide)
    [(1, CacheOp.putOp "a" [1]), (2, CacheOp.putOp "b" [2]),
     (3, CacheOp.putOp "c" [3]), (4, CacheOp.putOp "d" [4]),
     (5, CacheOp.putOp "e" [5]), (6, CacheOp.putOp "f" [6]),
     (7, CacheOp.putOp "g" [7])]
    (by decide) (by simp [List.chain'_cons])
    [(1, CacheOp.putOp "a" [1]), (2, CacheOp.putOp "b" [2]),
     (3, CacheOp.putOp "c" [3]), (4, CacheOp.putOp "d" [4]),
     (5, CacheOp.putOp "e" [5]), (6, CacheOp.putOp "f" [6]),
     (7, CacheOp.putOp "g" [7])] [] (by simp)

/-! ### Retrieval identity for distinct-key put sequences -/

/-- Run a sequence of timestamped `cacheBook` calls
(time, key, buffer). -/
def runPuts (cfg : CacheConfig) (puts : List (Nat × String × List Nat))
    (c : Cache) : Cache :=
  puts.foldl (fun acc p => cacheBook cfg p.1 p.2.1 p.2.2 acc) c

/-- Run a sequence of timestamped `getCachedBook` calls (time, key),
collecting the returned buffers. -/
def runGets (cfg : CacheConfig) :
    List (Nat × String) → Cache → List (Option (List Nat)) × Cache
  | [], c => ([], c)
  | q :: rest, c =>
    ((getCachedBook cfg q.1 q.2 c).1 ::
        (runGets cfg rest (getCachedBook cfg q.1 q.2 c).2).1,
      (runGets cfg rest (getCachedBook cfg q.1 q.2 c).2).2)

/-- The buffer a put sequence inserted for a key (first match). -/
def putBuf (puts : List (Nat × String × List Nat)) (k : String) :
    Option (List Nat) :=
  match puts with
  | [] => none
  | p :: rest => if p.2.1 = k then some p.2.2 else putBuf rest k

/-- The cache image of a put sequence: one entry per put, in order, with
both timestamps equal to the put time. -/
def putsEntries (puts : List (Nat × String × List Nat)) : Cache :=
  puts.map (fun p =>
    (p.2.1,
      { id := p.2.1, arrayBuffer := p.2.2, timestamp := p.1,
        lastAccessed := p.1 }))

theorem cleanExpiredCache_of_fresh (cfg : CacheConfig) (now : Nat) (c : Cache)
    (h : ∀ e ∈ c, now - e.2.timestamp ≤ cfg.MAX_CACHE_AGE) :
    (cleanExpiredCache cfg now c).1 = c := by
  rw [cleanExpiredCache]
  have hfil : c.filter (fun kv => now - kv.2.timestamp > cfg.MAX_CACHE_AGE) = [] := by
    rw [List.filter_eq_nil_iff]
    intro a ha
    have := h a ha
    simp only [decide_eq_true_eq]
    omega
  simp [hfil, sweepDeletes]

theorem putBuf_eq (puts : List (Nat × String × List Nat)) (k : String)
    (p : Nat × String × List Nat)
    (hnk : (puts.map (fun p => p.2.1)).Nodup) (hp : p ∈ puts)
    (hk : p.2.1 = k) : putBuf puts k = some p.2.2 := by
  induction puts with
  | nil => simp at hp
  | cons q rest ih =>
    rw [putBuf]
    rw [List.map_cons, List.nodup_cons] at hnk
    by_cases hq : q.2.1 = k
    · rw [if_pos hq]
      rcases List.mem_cons.mp hp with h1 | h1
      · rw [h1]
      · exact absurd (List.mem_map.mpr ⟨p, h1, hk.trans hq.symm⟩) hnk.1
    · rw [if_neg hq]
      rcases List.mem_cons.mp hp with h1 | h1
      · rw [h1] at hk
        exact absurd hk hq
      · exact ih hnk.2 h1

theorem runPuts_eq (cfg : CacheConfig) :
    ∀ (rest done : List (Nat × String × List Nat)),
      (((done ++ rest).map (fun p => p.2.1)).Nodup) →
      ((done ++ rest).length ≤ cfg.MAX_CACHE_SIZE) →
      (∀ p ∈ done ++ rest, ∀ q ∈ done ++ rest,
        p.1 - q.1 ≤ cfg.MAX_CACHE_AGE) →
      runPuts cfg rest (putsEntries done) = putsEntries (done ++ rest) := by
  intro rest
  induction rest with
  | nil =>
    intro done _ _ _
    simp [runPuts]
  | cons p₀ rest' ih =>
    intro done hn hlen hfresh
    have hmem₀ : p₀ ∈ done ++ p₀ :: rest' :=
      List.mem_append_right _ (List.mem_cons_self _ _)
    have hstep : cacheBook cfg p₀.1 p₀.2.1 p₀.2.2 (putsEntries done) =
        putsEntries (done ++ [p₀]) := by
      rw [cacheBook]
      have hsweep : (cleanExpiredCache cfg p₀.1 (putsEntries done)).1 =
          putsEntries done := by
        apply cleanExpiredCache_of_fresh
        intro e he
        rcases List.mem_map.mp he with ⟨q, hq, rfl⟩
        exact hfresh p₀ hmem₀ q (List.mem_append_left _ hq)
      rw [hsweep]
      have hlt : ¬ (cfg.MAX_CACHE_SIZE ≤ (putsEntries done).length) := by
        have h1 : (putsEntries done).length = done.length := List.length_map _ _
        rw [h1]
        simp only [List.length_append, List.length_cons] at hlen
        omega
      rw [if_neg hlt]
      have hkeq : cacheKeys (putsEntries done) = done.map (fun p => p.2.1) := by
        rw [cacheKeys, putsEntries, List.map_map]
        rfl
      have hknotin : p₀.2.1 ∉ cacheKeys (putsEntries done) := by
        rw [hkeq]
        intro hmem
        rw [List.map_append, List.nodup_append] at hn
        exact hn.2.2 hmem
          (by rw [List.map_cons]; exact List.mem_cons_self _ _)
      rw [mapSet_of_not_mem _ _ _ hknotin]
      simp [putsEntries]
    show runPuts cfg rest' (cacheBook cfg p₀.1 p₀.2.1 p₀.2.2 (putsEntries done)) = _
    rw [hstep]
    have heq : (done ++ [p₀]) ++ rest' = done ++ p₀ :: rest' := by simp
    have hrec := ih (done ++ [p₀]) (by rw [heq]; exact hn)
      (by rw [heq]; exact hlen) (by rw [heq]; exact hfresh)
    rw [hrec, heq]

theorem runGets_spec (cfg : CacheConfig) (puts : List (Nat × String × List Nat))
    (hnk : (puts.map (fun p => p.2.1)).Nodup) :
    ∀ (gets : List (Nat × String)) (c : Cache),
      (cacheKeys c).Nodup →
      (∀ p ∈ puts, ∃ la, mapGet p.2.1 c =
        some (⟨p.2.1, p.2.2, p.1, la⟩ : CachedBook)) →
      (∀ q ∈ gets, ∃ p, p ∈ puts ∧ p.2.1 = q.2 ∧
        q.1 - p.1 ≤ cfg.MAX_CACHE_AGE) →
      (runGets cfg gets c).1 = gets.map (fun q => putBuf puts q.2) := by
  intro gets
  induction gets with
  | nil =>
    intro c _ _ _
    simp [runGets]
  | cons q gets' ih =>
    intro c hn hInv hg
    obtain ⟨p, hp, hpk, hpage⟩ := hg q (List.mem_cons_self _ _)
    obtain ⟨la, hla⟩ := hInv p hp
    have hget : mapGet q.2 c =
        some (⟨p.2.1, p.2.2, p.1, la⟩ : CachedBook) := by
      rw [← hpk]
      exact hla
    have hnotexp : ¬ (q.1 - p.1 > cfg.MAX_CACHE_AGE) := by omega
    have hcall : getCachedBook cfg q.1 q.2 c =
        (some p.2.2,
          mapSet q.2 (⟨p.2.1, p.2.2, p.1, q.1⟩ : CachedBook) c) := by
      rw [getCachedBook]
      simp only [hget]
      rw [if_neg hnotexp]
    rw [runGets, hcall]
    have h1 : putBuf puts q.2 = some p.2.2 := putBuf_eq puts q.2 p hnk hp hpk
    rw [List.map_cons, h1]
    have hn' : (cacheKeys (mapSet q.2
        (⟨p.2.1, p.2.2, p.1, q.1⟩ : CachedBook) c)).Nodup :=
      nodup_keys_mapSet _ _ _ hn
    have hInv' : ∀ p' ∈ puts, ∃ la', mapGet p'.2.1 (mapSet q.2
        (⟨p.2.1, p.2.2, p.1, q.1⟩ : CachedBook) c) =
        some (⟨p'.2.1, p'.2.2, p'.1, la'⟩ : CachedBook) := by
      intro p' hp'
      by_cases hkk : p'.2.1 = q.2
      · have hpp : p' = p :=
          List.inj_on_of_nodup_map hnk hp' hp (by rw [hkk, hpk])
        refine ⟨q.1, ?_⟩
        rw [hkk, hpp, ← hpk]
        exact mapGet_set_self _ _ _
      · obtain ⟨la', h'⟩ := hInv p' hp'
        exact ⟨la', by rw [mapGet_set_ne _ _ _ _ hkk]; exact h'⟩
    have hg' : ∀ q' ∈ gets', ∃ p', p' ∈ puts ∧ p'.2.1 = q'.2 ∧
        q'.1 - p'.1 ≤ cfg.MAX_CACHE_AGE :=
      fun q' hq' => hg q' (List.mem_cons_of_mem _ hq')
    rw [ih _ hn' hInv' hg']

/-- Claim C3 (retrieval identity): for a sequence of puts with pairwise
distinct keys of length at most `MAX_ENTRIES`, followed by gets — each
strictly afterwards, each on one of the inserted keys, each within
`MAX_AGE` of that key's insertion, and covering every inserted key —
every get returns exactly the buffer that was inserted for its key
(byte-for-byte, as equality of the byte lists). -/
theorem claim_C3 (cfg : CacheConfig) (puts : List (Nat × String × List Nat))
    (gets : List (Nat × String))
    (hlen : puts.length ≤ cfg.MAX_CACHE_SIZE)
    (hnk : (puts.map (fun p => p.2.1)).Nodup)
    (hsub : ∀ p ∈ puts, ∀ q ∈ gets, p.1 ≤ q.1)
    (hcover : ∀ p ∈ puts, ∃ q, q ∈ gets ∧ q.2 = p.2.1)
    (hg : ∀ q ∈ gets, ∃ p, p ∈ puts ∧ p.2.1 = q.2 ∧
      q.1 - p.1 ≤ cfg.MAX_CACHE_AGE) :
    (runGets cfg gets (runPuts cfg puts [])).1 =
      gets.map (fun q => putBuf puts q.2) ∧
      ∀ q ∈ gets, ∃ b, putBuf puts q.2 = some b := by
  have hfresh : ∀ p ∈ puts, ∀ q ∈ puts, p.1 - q.1 ≤ cfg.MAX_CACHE_AGE := by
    intro p hp q hq
    obtain ⟨g0, hg0, hg0k⟩ := hcover q hq
    obtain ⟨p', hp', hp'k, hp'age⟩ := hg g0 hg0
    have hqp' : p' = q :=
      List.inj_on_of_nodup_map hnk hp' hq (by rw [hp'k, hg0k])
    subst hqp'
    have h1 : p.1 ≤ g0.1 := hsub p hp g0 hg0
    omega
  have hrun : runPuts cfg puts [] = putsEntries puts := by
    have := runPuts_eq cfg puts [] (by simpa using hnk)
      (by simpa using hlen) (by simpa using hfresh)
    simpa [putsEntries] using this
  have hkeq : cacheKeys (putsEntries puts) = puts.map (fun p => p.2.1) := by
    rw [cacheKeys, putsEntries, List.map_map]
    rfl
  have hnput : (cacheKeys (putsEntries puts)).Nodup := by
    rw [hkeq]
    exact hnk
  refine ⟨?_, ?_⟩
  · rw [hrun]
    refine runGets_spec cfg puts hnk gets (putsEntries puts) hnput ?_ hg
    intro p hp
    refine ⟨p.1, ?_⟩
    exact mapGet_of_mem_nodup hnput (List.mem_map.mpr ⟨p, hp, rfl⟩)
  · intro q hq
    obtain ⟨p, hp, hpk, _⟩ := hg q hq
    exact ⟨p.2.2, putBuf_eq puts q.2 p hnk hp hpk⟩

/-- Witness for C3: two puts ("a" at 0, "b" at 1) and two later gets at
time 2 each return the inserted buffer. -/
theorem claim_C3_witness :
    (runGets defaultConfig [(2, "a"), (2, "b")]
      (runPuts defaultConfig [(0, "a", [1]), (1, "b", [2])] [])).1 =
      [(2, "a"), (2, "b")].map
        (fun q => putBuf [(0, "a", [1]), (1, "b", [2])] q.2) ∧
      ∀ q ∈ ([(2, "a"), (2, "b")] : List (Nat × String)),
        ∃ b, putBuf [(0, "a", [1]), (1, "b", [2])] q.2 = some b :=
  claim_C3 defaultConfig [(0, "a", [1]), (1, "b", [2])] [(2, "a"), (2, "b")]
    (by decide) (by decide) (by decide) (by decide) (by decide)
